import Mathlib

/-!
Shallow embedding of the core of the `libhook` inline-hooking library
(`src/alloc/proximity.rs`, `src/alloc/search.rs`, `src/alloc/mod.rs`,
`src/patcher/byte.rs`, `src/patcher/mem.rs`, `src/patcher/code.rs`),
together with proofs about its specified behaviour.

Conventions of the embedding:
* machine addresses and bytes are `Nat`; `usize` saturating arithmetic is
  explicit (`Nat` subtraction is already saturating, `saturatingAdd` caps
  at `2^64 - 1`);
* process memory is a total function `Nat → Nat` from addresses to bytes;
* OS services (`region::query`, `mmap`, page size) are an explicit oracle
  (`OS`), and the unbounded scanning loops are given fuel;
* the external crate `slice_pool` (`SlicePool` / first-fit sub-allocation,
  with `len()` the byte length of the underlying slice and the live
  sub-allocations tracked as offset/length pairs) is modelled from its
  documented contract, since only its observable behaviour matters here.
-/

namespace LibHook

/-! ## Byte-level memory model -/

/-- Read `n` consecutive bytes starting at address `loc`. -/
def readBytes (mem : Nat → Nat) (loc n : Nat) : List Nat :=
  (List.range n).map (fun i => mem (loc + i))

/-- Write the byte list `bs` to consecutive addresses starting at `loc`
(the embedding of `ptr::copy(bs.as_ptr(), loc, bs.len())`). -/
def writeBytes (mem : Nat → Nat) (loc : Nat) (bs : List Nat) : Nat → Nat :=
  fun a => if loc ≤ a ∧ a < loc + bs.length then bs.getD (a - loc) 0 else mem a

/-! ## Guarded byte patcher (`src/patcher/byte.rs`)

`BytePatchGuard::patch` captures `patch.len()` original bytes at `location`,
then overwrites them with the patch bytes; `Drop` (restore) copies the
captured bytes back. -/

/-- Guard state of `BytePatchGuard`: captured original bytes plus the patch
location. -/
structure BytePatchGuard where
  original : List Nat
  location : Nat
deriving DecidableEq

/-- Embedding of `BytePatchGuard::patch`: returns the guard together with
the updated memory. -/
def BytePatchGuard.patch (location : Nat) (patch : List Nat) (mem : Nat → Nat) :
    BytePatchGuard × (Nat → Nat) :=
  let original := readBytes mem location patch.length
  (⟨original, location⟩, writeBytes mem location patch)

/-- Embedding of `impl Drop for BytePatchGuard` (also reached through
`Guard.restore()`): the captured bytes are written back. -/
def BytePatchGuard.drop (g : BytePatchGuard) (mem : Nat → Nat) : Nat → Nat :=
  writeBytes mem g.location g.original

/-! ## Architecture descriptor (`src/patcher/code.rs`, `X86_64`) -/

/-- Embedding of `X86_64::max_instr_len`. -/
def X86_64.max_instr_len : Nat := 16

/-- Embedding of `X86_64::bitness`. -/
def X86_64.bitness : Nat := 64

/-- Number of bytes `CodePatcher::new` reads from `location` before
decoding, for the `X86_64` architecture: `patch.len() + A::max_instr_len()`
(`let max_size = patch_size + A::max_instr_len()` followed by
`slice::from_raw_parts(location, max_size)`). -/
def codePatcherReadLen (patchLen : Nat) : Nat := patchLen + X86_64.max_instr_len

/-! ## Instruction accumulation in `CodePatcher::new`

A decoded instruction stream is represented by the list of its instruction
lengths, in decode order.  The `take_while` loop of `CodePatcher::new`
keeps an instruction exactly when the cumulative length of the previously
kept instructions is still below the requested patch length. -/

/-- Embedding of the `take_while` accumulation loop of `CodePatcher::new`:
`size` is the running cumulative length, an instruction is included while
`size < patch_size` held before adding its own length. -/
def accumulateInstructions (patchSize : Nat) : List Nat → Nat → List Nat
  | [], _ => []
  | l :: ls, size =>
    if size < patchSize then l :: accumulateInstructions patchSize ls (size + l) else []

/-- Embedding of the recomputed overwrite size of `CodePatcher::new`
(`instructions.iter().fold(0, |c, i| c + i.len())`). -/
def trueOverwriteSize (patchSize : Nat) (lens : List Nat) : Nat :=
  (accumulateInstructions patchSize lens 0).sum

/-! ## Trampoline instruction list (`CodePatcher::new`, lines 100–119)

After accumulating the displaced instructions, `CodePatcher::new` appends a
single `Jmp_rel32_64` instruction whose branch target is
`location + size`, where `size` is the recomputed overwrite size. -/

/-- Instructions as far as the trampoline construction observes them: a
decoded original instruction (identified by its length) or the synthetic
relative jump with its branch target. -/
inductive Instr where
  | decoded (len : Nat)
  | jmpRel32 (target : Nat)
deriving DecidableEq

/-- Predicate picking out the synthetic relative jump. -/
def Instr.isJmp : Instr → Bool
  | .decoded _ => false
  | .jmpRel32 _ => true

/-- Embedding of the instruction list built by `CodePatcher::new`: the
accumulated (to-be-displaced) instructions followed by the pushed
`Jmp_rel32_64` targeting `location + size`. -/
def codePatcherInstructions (location patchSize : Nat) (lens : List Nat) : List Instr :=
  let instructions := (accumulateInstructions patchSize lens 0).map Instr.decoded
  let size := (accumulateInstructions patchSize lens 0).sum
  instructions ++ [Instr.jmpRel32 (location + size)]

/-! ## Final patch payload (`CodePatcher::new`, lines 147–153)

`patch.iter().copied().chain(iter::repeat(0x90)).take(size)`: the caller's
bytes followed by no-op padding, truncated to the overwrite size.  The
unbounded `repeat` is modelled by a replicate that is always long enough
for the `take`. -/

/-- Embedding of the final payload construction of `CodePatcher::new`. -/
def buildFinalPatch (patch : List Nat) (size : Nat) : List Nat :=
  (patch ++ List.replicate size 0x90).take size

/-! ## `CodePatcher::new` as a whole (`src/patcher/code.rs`, lines 80–162)

The constructor is embedded as a function of its target-independent inputs
plus three oracles for the steps whose outcome depends on the instruction
encoder and the operating system:

* `lens` — the decoded instruction stream at `location` (list of
  instruction lengths);
* `jmpEncodable` — whether `Instruction::with_branch` succeeds;
* `allocResult` — the buffer address returned by `allocate_executable`
  (`none` when allocation fails);
* `encodeResult` — the byte buffer produced by `BlockEncoder::encode`
  (`none` when re-encoding fails).

Along with the `Except` result, the embedding returns the list of memory
writes the constructor performs; the only write in the source is the
`ptr::copy` of the encoded bytes into the freshly allocated buffer, and it
happens after every error exit. -/

/-- Errors of `CodePatcher::new`, as far as the embedded control flow can
produce them. -/
inductive CodeError where
  | icedError
  | proximityError
  | bufferTooSmall (allocated needed location : Nat)
deriving DecidableEq

/-- One raw memory write (destination address and bytes written). -/
structure MemWrite where
  dest : Nat
  bytes : List Nat
deriving DecidableEq

/-- Apply a list of writes to a memory, in order. -/
def applyWrites (mem : Nat → Nat) : List MemWrite → (Nat → Nat)
  | [] => mem
  | w :: ws => applyWrites (writeBytes mem w.dest w.bytes) ws

/-- Successful result of `CodePatcher::new`: the trampoline buffer and the
final patch payload kept for the later `CodePatcher::patch`. -/
structure BuiltCodePatcher where
  bufferAddr : Nat
  bufferLen : Nat
  patch : List Nat
  location : Nat
deriving DecidableEq

/-- Embedding of `CodePatcher::new` (for the `X86_64` architecture):
result plus the list of memory writes performed during construction. -/
def CodePatcher.new (location : Nat) (patch : List Nat) (lens : List Nat)
    (jmpEncodable : Bool) (allocResult : Option Nat) (encodeResult : Option (List Nat)) :
    Except CodeError BuiltCodePatcher × List MemWrite :=
  let size := trueOverwriteSize patch.length lens
  if jmpEncodable = false then (.error .icedError, [])
  else
    match allocResult with
    | none => (.error .proximityError, [])
    | some bufAddr =>
      let bufLen := size * 2 + X86_64.max_instr_len
      match encodeResult with
      | none => (.error .icedError, [])
      | some bytes =>
        if bufLen < bytes.length then
          (.error (.bufferTooSmall bufLen bytes.length bufAddr), [])
        else
          (.ok ⟨bufAddr, bufLen, buildFinalPatch patch size, location⟩, [⟨bufAddr, bytes⟩])

/-! ## Permission wrapper (`src/patcher/mem.rs`)

The machine state carries the data bytes and, per address, the current
memory protection.  `region::protect_with_handle` elevates the protection
of the patched range to `Protection::all()` and hands back a guard that
restores the previous protection when dropped. -/

/-- Memory protections, as far as the wrapper observes them:
`Protection::all()` (read/write/execute) or any other set of flags. -/
inductive Protection where
  | all
  | flags (code : Nat)
deriving DecidableEq

/-- Machine state: byte contents and protection of every address. -/
structure MachineState where
  data : Nat → Nat
  prot : Nat → Protection

/-- Set the protection of the byte range `[loc, loc + len)`. -/
def setProtRange (s : MachineState) (loc len : Nat) (p : Protection) : MachineState :=
  { s with prot := fun a => if loc ≤ a ∧ a < loc + len then p else s.prot a }

/-- Restore the protection of the byte range `[loc, loc + len)` from a
snapshot (the drop of a `region::protect_with_handle` guard). -/
def restoreProtRange (s : MachineState) (loc len : Nat) (snapshot : Nat → Protection) :
    MachineState :=
  { s with prot := fun a => if loc ≤ a ∧ a < loc + len then snapshot a else s.prot a }

/-- Write bytes into the data portion of the machine state. -/
def writeData (s : MachineState) (loc : Nat) (bs : List Nat) : MachineState :=
  { s with data := writeBytes s.data loc bs }

/-- Guard state of `PermissionWrapperGuard` over the byte patcher: the
inner `BytePatchGuard` plus the patched range. -/
structure PermissionWrapperGuard where
  guard : BytePatchGuard
  location : Nat
  len : Nat
deriving DecidableEq

/-- Embedding of `PermissionWrapper::<BytePatcher>::patch`: elevate the
protection of the patched range, run the inner byte patch, and — when the
`_guard` handle of `region::protect_with_handle` is dropped at the end of
`patch` — restore the prior protection. -/
def PermissionWrapper.patch (s : MachineState) (location : Nat) (patch : List Nat) :
    PermissionWrapperGuard × MachineState :=
  let snapshot := s.prot
  let s1 := setProtRange s location patch.length .all
  let inner := BytePatchGuard.patch location patch s1.data
  let s2 := { s1 with data := inner.2 }
  let s3 := restoreProtRange s2 location patch.length snapshot
  (⟨inner.1, location, patch.length⟩, s3)

/-- State in which the inner restore of `PermissionWrapperGuard::drop`
executes: the protection of the patched range has just been elevated by
`region::protect_with_handle(self.location, self.len, Protection::all())`. -/
def PermissionWrapperGuard.dropElevated (g : PermissionWrapperGuard) (s : MachineState) :
    MachineState :=
  setProtRange s g.location g.len .all

/-- Embedding of `PermissionWrapperGuard::drop`: elevate the protection,
run the inner guard's restore (`self.guard.take().unwrap().restore()`),
then — when the local `_guard` handle is dropped at the end of the `drop`
body — restore the protection captured on entry. -/
def PermissionWrapperGuard.drop (g : PermissionWrapperGuard) (s : MachineState) :
    MachineState :=
  let snapshot := s.prot
  let s1 := g.dropElevated s
  let s2 := writeData s1 g.guard.location g.guard.original
  restoreProtRange s2 g.location g.len snapshot

/-! ## usize saturating arithmetic -/

/-- Largest `usize` value on the one supported (64-bit) architecture. -/
def USIZE_MAX : Nat := 2 ^ 64 - 1

/-- Embedding of `usize::saturating_add` (`usize::saturating_sub` is plain
`Nat` subtraction). -/
def saturatingAdd (a b : Nat) : Nat := min (a + b) USIZE_MAX

/-! ## Region scanner (`src/alloc/search.rs`)

`region::query` is an OS oracle; the `while` loop of
`FreeRegionIter::next` is given explicit fuel since nothing bounds it
structurally. -/

/-- Direction of the region search. -/
inductive SearchDirection where
  | before
  | after
deriving DecidableEq

/-- Outcome of `region::query(addr)`: a mapped region with its address
range (`region.as_range()`), the `UnmappedRegion` error, or any other
query error. -/
inductive QueryResult where
  | mapped (rstart rend : Nat)
  | unmappedRegion
  | queryError
deriving DecidableEq

/-- Error yielded by the scanner for non-`UnmappedRegion` query errors. -/
inductive RegionError where
  | queryError
deriving DecidableEq

/-- Oracle for the operating system services used by the allocator. -/
structure OS where
  query : Nat → QueryResult
  pageSize : Nat
  mmapOk : Nat → Nat → Bool

/-- State of `FreeRegionIter`: bound range (half open, as a Rust
`Range<usize>`), search direction and current cursor. -/
structure FreeRegionIter where
  rangeStart : Nat
  rangeEnd : Nat
  search : SearchDirection
  current : Nat
deriving DecidableEq

/-- Cursor update after yielding from an unmapped address (advance by one
page in the search direction; `saturating_sub` for `before`). -/
def FreeRegionIter.bump (it : FreeRegionIter) (pageSize : Nat) : Nat :=
  match it.search with
  | .before => it.current - pageSize
  | .after => it.current + pageSize

/-- Embedding of `FreeRegionIter::next` with fuel for the scanning loop:
returns the yielded item together with the updated iterator, or `none`
when the loop exits (or the fuel runs out while skipping mapped
regions). -/
def FreeRegionIter.next (os : OS) :
    Nat → FreeRegionIter → Option (Except RegionError Nat × FreeRegionIter)
  | 0, _ => none
  | fuel + 1, it =>
    if 0 < it.current ∧ it.rangeStart ≤ it.current ∧ it.current < it.rangeEnd then
      match os.query it.current with
      | .mapped rstart rend =>
        FreeRegionIter.next os fuel
          { it with
            current :=
              match it.search with
              | .before => rstart - os.pageSize
              | .after => rend }
      | .unmappedRegion =>
        some (.ok it.current, { it with current := it.bump os.pageSize })
      | .queryError =>
        some (.error .queryError, { it with current := it.bump os.pageSize })
    else none

/-- Run the iterator repeatedly, collecting at most `fuel` yielded items
(each `next` call also gets `fuel` for its internal loop). -/
def regionSearchResults (os : OS) (fuel : Nat) :
    FreeRegionIter → Nat → List (Except RegionError Nat)
  | _, 0 => []
  | it, n + 1 =>
    match FreeRegionIter.next os fuel it with
    | none => []
    | some (r, it') => r :: regionSearchResults os fuel it' n

/-- Embedding of `region_search::after(origin, Some(range))`. -/
def regionSearchAfter (rangeStart rangeEnd origin : Nat) : FreeRegionIter :=
  ⟨rangeStart, rangeEnd, .after, origin⟩

/-- Embedding of `region_search::before(origin, Some(range))`. -/
def regionSearchBefore (rangeStart rangeEnd origin : Nat) : FreeRegionIter :=
  ⟨rangeStart, rangeEnd, .before, origin⟩

/-! ## `slice_pool` model

`SlicePool<u8>` is the external sub-allocator the proximity allocator
builds on.  Modelled from its documented contract: `as_ptr()` is the base
address, `len()` the byte length of the underlying slice, `alloc(size)`
first-fit sub-allocates a fresh chunk disjoint from every live allocation
(returning its address), and the live allocations are offset/length
pairs. -/

/-- Disjointness of two offset/length chunks. -/
def chunksDisjoint (o1 l1 o2 l2 : Nat) : Bool :=
  decide (o1 + l1 ≤ o2) || decide (o2 + l2 ≤ o1)

/-- First-fit search for a free offset, scanning offsets upward from `o`
with fuel. -/
def firstFitFrom (allocs : List (Nat × Nat)) (poolSize size : Nat) : Nat → Nat → Option Nat
  | _, 0 => none
  | o, fuel + 1 =>
    if o + size ≤ poolSize ∧ allocs.all fun c => chunksDisjoint o size c.1 c.2 then some o
    else firstFitFrom allocs poolSize size (o + 1) fuel

/-- Model of `slice_pool::sync::SlicePool<u8>`. -/
structure SlicePool where
  base : Nat
  size : Nat
  allocs : List (Nat × Nat)
deriving DecidableEq

/-- Model of `SlicePool::alloc(size)`: first-fit sub-allocation; returns
the address of the new chunk and the updated pool. -/
def SlicePool.alloc (p : SlicePool) (size : Nat) : Option (Nat × SlicePool) :=
  (firstFitFrom p.allocs p.size size 0 (p.size + 1)).map
    fun o => (p.base + o, { p with allocs := (o, size) :: p.allocs })

/-! ## Proximity allocator (`src/alloc/proximity.rs`) -/

/-- Embedding of `ProximityError`. -/
inductive ProximityError where
  | outOfMemory
  | mmapError
  | regionError (e : RegionError)
deriving DecidableEq

/-- Embedding of `ProximityAllocator` (max distance plus pool list). -/
structure ProximityAllocator where
  max_distance : Nat
  pools : List SlicePool
deriving DecidableEq

/-- Embedding of the `is_pool_in_range` closure of `allocate_memory`:
both the pool's first and last byte must lie in `range` (a half-open
Rust range). -/
def isPoolInRange (rangeStart rangeEnd : Nat) (p : SlicePool) : Bool :=
  let lower := p.base
  let upper := lower + p.size
  (decide (rangeStart ≤ lower) && decide (lower < rangeEnd)) &&
    (decide (rangeStart ≤ upper - 1) && decide (upper - 1 < rangeEnd))

/-- Body of `ProximityAllocator::allocate_memory`: first-fit over the
pools whose whole span lies in range, returning the allocated address and
the updated pool list. -/
def allocateMemoryGo (rangeStart rangeEnd size : Nat) :
    List SlicePool → Option (Nat × List SlicePool)
  | [] => none
  | p :: rest =>
    if isPoolInRange rangeStart rangeEnd p then
      match p.alloc size with
      | some (addr, p') => some (addr, p' :: rest)
      | none => (allocateMemoryGo rangeStart rangeEnd size rest).map fun r => (r.1, p :: r.2)
    else (allocateMemoryGo rangeStart rangeEnd size rest).map fun r => (r.1, p :: r.2)

/-- Embedding of `ProximityAllocator::allocate_fixed_pool` given the mmap
oracle: a successful fixed mapping yields a fresh pool at exactly the
candidate address with no live allocations. -/
def allocateFixedPool (os : OS) (address size : Nat) : Option SlicePool :=
  if os.mmapOk address size then some ⟨address, size, []⟩ else none

/-- The `find_map` over the chained candidate sequences in
`ProximityAllocator::allocate_pool`: a candidate address is tried with a
fixed mapping (failures skipped), a scanner error stops the search, and
an exhausted sequence is `OutOfMemory`. -/
def findPoolCandidate (os : OS) (size : Nat) :
    List (Except RegionError Nat) → Except ProximityError SlicePool
  | [] => .error .outOfMemory
  | .ok address :: rest =>
    match allocateFixedPool os address size with
    | some pool => .ok pool
    | none => findPoolCandidate os size rest
  | .error e :: _ => .error (.regionError e)

/-- Embedding of `ProximityAllocator::allocate_pool`: scan `after` the
origin first, then `before`, and map the first candidate that the OS can
fix-map. -/
def ProximityAllocator.allocate_pool (os : OS) (fuel rangeStart rangeEnd origin size : Nat) :
    Except ProximityError SlicePool :=
  let afterResults := regionSearchResults os fuel (regionSearchAfter rangeStart rangeEnd origin) fuel
  let beforeResults :=
    regionSearchResults os fuel (regionSearchBefore rangeStart rangeEnd origin) fuel
  findPoolCandidate os size (afterResults ++ beforeResults)

/-- Embedding of `ProximityAllocator::allocate`: compute the saturating
proximity range, try the existing pools, otherwise map a new pool, push
it, and sub-allocate from it. -/
def ProximityAllocator.allocate (st : ProximityAllocator) (os : OS)
    (fuel origin size : Nat) : Except ProximityError (Nat × ProximityAllocator) :=
  let rangeStart := origin - st.max_distance
  let rangeEnd := saturatingAdd origin st.max_distance
  match allocateMemoryGo rangeStart rangeEnd size st.pools with
  | some (addr, pools') => .ok (addr, { st with pools := pools' })
  | none =>
    match ProximityAllocator.allocate_pool os fuel rangeStart rangeEnd origin size with
    | .error e => .error e
    | .ok pool =>
      match pool.alloc size with
      | none => .error .outOfMemory
      | some (addr, pool') => .ok (addr, { st with pools := st.pools ++ [pool'] })

/-- Containment test used by `ProximityAllocator::release` to find the
owning pool: `(lower..upper).contains(&(value.as_ptr() as usize))`. -/
def poolContains (p : SlicePool) (addr : Nat) : Bool :=
  decide (p.base ≤ addr) && decide (addr < p.base + p.size)

/-- Body of `ProximityAllocator::release`: find the first pool containing
the allocation's address; remove it exactly when `pools[index].len() == 1`
(the *byte length* of the pool's slice — `len()` is the same quantity the
containment test uses for `upper`). -/
def releaseGo (allocPtr : Nat) : List SlicePool → Option (List SlicePool)
  | [] => none
  | p :: rest =>
    if poolContains p allocPtr then
      if p.size = 1 then some rest else some (p :: rest)
    else (releaseGo allocPtr rest).map fun l => p :: l

/-- Embedding of `ProximityAllocator::release` (`none` models the
`.expect` panic when no pool contains the allocation). -/
def ProximityAllocator.release (st : ProximityAllocator) (allocPtr : Nat) :
    Option ProximityAllocator :=
  (releaseGo allocPtr st.pools).map fun pools' => { st with pools := pools' }

/-! ## Concrete instances used by the witness theorems -/

/-- Projection helper: the guard produced by
`PermissionWrapper::<BytePatcher>::patch`. -/
def permissionPatchGuard (s : MachineState) (location : Nat) (patch : List Nat) :
    PermissionWrapperGuard :=
  (PermissionWrapper.patch s location patch).1

/-- Projection helper: the machine state after
`PermissionWrapper::<BytePatcher>::patch` returned. -/
def permissionPatchState (s : MachineState) (location : Nat) (patch : List Nat) :
    MachineState :=
  (PermissionWrapper.patch s location patch).2

/-- Machine state with zeroed data and a non-writable protection, used to
instantiate theorems at a concrete input. -/
def machine0 : MachineState :=
  ⟨fun _ => 0, fun _ => Protection.flags 0⟩

/-- OS oracle whose whole address space is unmapped and whose fixed
mappings always succeed. -/
def osFree : OS :=
  ⟨fun _ => QueryResult.unmappedRegion, 4096, fun _ _ => true⟩

/-- OS oracle with one mapped region `[0, 8192)` and everything above it
unmapped. -/
def osLowMapped : OS :=
  ⟨fun a => if a < 8192 then QueryResult.mapped 0 8192 else QueryResult.unmappedRegion,
    4096, fun _ _ => true⟩

theorem readBytes_length (mem : Nat → Nat) (loc n : Nat) :
    (readBytes mem loc n).length = n := by
  simp [readBytes]

theorem readBytes_getElem (mem : Nat → Nat) (loc n i : Nat)
    (h : i < (readBytes mem loc n).length) :
    (readBytes mem loc n)[i] = mem (loc + i) := by
  simp [readBytes]

theorem writeBytes_of_mem (mem : Nat → Nat) (loc : Nat) (bs : List Nat) (a : Nat)
    (h1 : loc ≤ a) (h2 : a < loc + bs.length) :
    writeBytes mem loc bs a = bs.getD (a - loc) 0 := by
  simp [writeBytes, h1, h2]

theorem writeBytes_of_not_mem (mem : Nat → Nat) (loc : Nat) (bs : List Nat) (a : Nat)
    (h : ¬(loc ≤ a ∧ a < loc + bs.length)) :
    writeBytes mem loc bs a = mem a := by
  simp only [writeBytes, if_neg h]

/-- Writing back the bytes previously read from the same range is a no-op. -/
theorem writeBytes_readBytes (mem : Nat → Nat) (loc n : Nat) :
    writeBytes mem loc (readBytes mem loc n) = mem := by
  funext a
  by_cases h : loc ≤ a ∧ a < loc + n
  · rw [writeBytes_of_mem mem loc _ a h.1 (by simpa [readBytes_length] using h.2)]
    have hlt : a - loc < n := by omega
    rw [List.getD_eq_getElem _ _ (by simpa [readBytes_length] using hlt)]
    rw [readBytes_getElem mem loc n (a - loc) (by simpa [readBytes_length] using hlt)]
    congr 1
    omega
  · exact writeBytes_of_not_mem mem loc _ a (by simpa [readBytes_length] using h)

/-- Writing the bytes previously read from `mem` over a memory that agrees
with `mem` outside the written range restores `mem` exactly. -/
theorem writeBytes_readBytes_restore (mem m2 : Nat → Nat) (loc n : Nat)
    (hout : ∀ a, ¬(loc ≤ a ∧ a < loc + n) → m2 a = mem a) :
    writeBytes m2 loc (readBytes mem loc n) = mem := by
  funext a
  by_cases h : loc ≤ a ∧ a < loc + n
  · rw [writeBytes_of_mem m2 loc _ a h.1 (by simpa [readBytes_length] using h.2)]
    have hlt : a - loc < n := by omega
    rw [List.getD_eq_getElem _ _ (by simpa [readBytes_length] using hlt)]
    rw [readBytes_getElem mem loc n (a - loc) (by simpa [readBytes_length] using hlt)]
    congr 1
    omega
  · rw [writeBytes_of_not_mem m2 loc _ a (by simpa [readBytes_length] using h)]
    exact hout a h

/-- Reading back a freshly written range returns the written bytes. -/
theorem readBytes_writeBytes (mem : Nat → Nat) (loc : Nat) (bs : List Nat) :
    readBytes (writeBytes mem loc bs) loc bs.length = bs := by
  apply List.ext_getElem
  · simp [readBytes_length]
  · intro i h1 h2
    rw [readBytes_getElem _ loc bs.length i h1]
    rw [writeBytes_of_mem mem loc bs (loc + i) (by omega) (by omega)]
    rw [List.getD_eq_getElem bs _ (by omega)]
    congr 1
    omega

/-- The accumulated instructions form a prefix of the decoded stream. -/
theorem accumulateInstructions_eq_take (patchSize : Nat) (lens : List Nat) (size : Nat) :
    ∃ k, k ≤ lens.length ∧ accumulateInstructions patchSize lens size = lens.take k := by
  induction lens generalizing size with
  | nil => exact ⟨0, by simp, rfl⟩
  | cons l ls ih =>
    by_cases h : size < patchSize
    · obtain ⟨k, hk, heq⟩ := ih (size + l)
      exact ⟨k + 1, by simpa using hk, by simp [accumulateInstructions, h, heq]⟩
    · exact ⟨0, by simp, by simp [accumulateInstructions, h]⟩

/-- If the whole stream is long enough, the accumulated length crosses the
requested patch size. -/
theorem accumulateInstructions_sum_ge (patchSize : Nat) (lens : List Nat) (size : Nat)
    (h : patchSize ≤ size + lens.sum) :
    patchSize ≤ size + (accumulateInstructions patchSize lens size).sum := by
  induction lens generalizing size with
  | nil => simpa using h
  | cons l ls ih =>
    by_cases hlt : size < patchSize
    · have := ih (size + l) (by simp at h; omega)
      simp only [accumulateInstructions, if_pos hlt, List.sum_cons]
      omega
    · simp only [accumulateInstructions, if_neg hlt, List.sum_nil]
      omega

/-- Overwrite size is at least the requested patch size whenever the
decoded stream covers at least `patchSize` bytes. -/
theorem trueOverwriteSize_ge (patchSize : Nat) (lens : List Nat)
    (h : patchSize ≤ lens.sum) :
    patchSize ≤ trueOverwriteSize patchSize lens := by
  simpa [trueOverwriteSize] using accumulateInstructions_sum_ge patchSize lens 0 (by simpa using h)

/-! ## Helper lemmas -/

theorem firstFitFrom_le (allocs : List (Nat × Nat)) (poolSize size : Nat) :
    ∀ (fuel o o' : Nat), firstFitFrom allocs poolSize size o fuel = some o' →
      o' + size ≤ poolSize := by
  intro fuel
  induction fuel with
  | zero => intro o o' h; simp [firstFitFrom] at h
  | succ n ih =>
    intro o o' h
    simp only [firstFitFrom] at h
    by_cases hc : o + size ≤ poolSize ∧ allocs.all fun c => chunksDisjoint o size c.1 c.2
    · rw [if_pos hc] at h
      cases h
      exact hc.1
    · rw [if_neg hc] at h
      exact ih (o + 1) o' h

theorem SlicePool.alloc_addr_bounds (p : SlicePool) (size addr : Nat) (p' : SlicePool)
    (h : p.alloc size = some (addr, p')) :
    p.base ≤ addr ∧ addr + size ≤ p.base + p.size := by
  unfold SlicePool.alloc at h
  cases hf : firstFitFrom p.allocs p.size size 0 (p.size + 1) with
  | none => rw [hf] at h; simp at h
  | some o =>
    rw [hf] at h
    simp only [Option.map_some'] at h
    obtain ⟨h1, _⟩ := Prod.mk.injEq .. ▸ Option.some.inj h
    have := firstFitFrom_le p.allocs p.size size (p.size + 1) 0 o hf
    omega

theorem firstFitFrom_zero_size (allocs : List (Nat × Nat)) (poolSize : Nat) :
    firstFitFrom allocs poolSize 0 0 (poolSize + 1) = some 0 := by
  have hall : (allocs.all fun c => chunksDisjoint 0 0 c.1 c.2) = true := by
    simp [List.all_eq_true, chunksDisjoint]
  simp [firstFitFrom, hall]

theorem SlicePool.alloc_addr_lt (p : SlicePool) (size addr : Nat) (p' : SlicePool)
    (hsize : 1 ≤ p.size) (h : p.alloc size = some (addr, p')) :
    addr < p.base + p.size := by
  cases size with
  | zero =>
    unfold SlicePool.alloc at h
    rw [firstFitFrom_zero_size] at h
    simp only [Option.map_some'] at h
    obtain ⟨h1, _⟩ := Prod.mk.injEq .. ▸ Option.some.inj h
    omega
  | succ s =>
    have := SlicePool.alloc_addr_bounds p (s + 1) addr p' h
    omega

theorem SlicePool.alloc_fresh (b n : Nat) :
    SlicePool.alloc ⟨b, n, []⟩ n = some (b, ⟨b, n, [(0, n)]⟩) := by
  have h0 : firstFitFrom [] n n 0 (n + 1) = some 0 := by
    simp [firstFitFrom]
  simp [SlicePool.alloc, h0]

theorem allocateMemoryGo_addr_in_range (rangeStart rangeEnd size : Nat) :
    ∀ (pools : List SlicePool) (result : Nat × List SlicePool),
      (∀ p ∈ pools, 1 ≤ p.size) →
      allocateMemoryGo rangeStart rangeEnd size pools = some result →
      rangeStart ≤ result.1 ∧ result.1 < rangeEnd := by
  intro pools
  induction pools with
  | nil => intro result _ h; simp [allocateMemoryGo] at h
  | cons p rest ih =>
    intro result hpools h
    have hp : 1 ≤ p.size := hpools p (by simp)
    have hrest : ∀ q ∈ rest, 1 ≤ q.size := fun q hq => hpools q (by simp [hq])
    simp only [allocateMemoryGo] at h
    by_cases hin : isPoolInRange rangeStart rangeEnd p
    · rw [if_pos hin] at h
      simp only [isPoolInRange, Bool.and_eq_true, decide_eq_true_eq] at hin
      cases halloc : p.alloc size with
      | some ap =>
        obtain ⟨a, p'⟩ := ap
        rw [halloc] at h
        have hb := SlicePool.alloc_addr_bounds p size a p' halloc
        have hl := SlicePool.alloc_addr_lt p size a p' hp halloc
        cases h
        simp only
        omega
      | none =>
        rw [halloc] at h
        cases hrec : allocateMemoryGo rangeStart rangeEnd size rest with
        | none => rw [hrec] at h; simp at h
        | some r =>
          rw [hrec] at h
          simp only [Option.map_some'] at h
          cases h
          exact ih r hrest hrec
    · rw [if_neg hin] at h
      cases hrec : allocateMemoryGo rangeStart rangeEnd size rest with
      | none => rw [hrec] at h; simp at h
      | some r =>
        rw [hrec] at h
        simp only [Option.map_some'] at h
        cases h
        exact ih r hrest hrec

theorem FreeRegionIter.next_exit (os : OS) (fuel : Nat) (it : FreeRegionIter)
    (h : ¬(0 < it.current ∧ it.rangeStart ≤ it.current ∧ it.current < it.rangeEnd)) :
    FreeRegionIter.next os fuel it = none := by
  cases fuel with
  | zero => rfl
  | succ n => simp only [FreeRegionIter.next, if_neg h]

theorem FreeRegionIter.next_preserves (os : OS) :
    ∀ (fuel : Nat) (it it' : FreeRegionIter) (r : Except RegionError Nat),
      FreeRegionIter.next os fuel it = some (r, it') →
      it'.rangeStart = it.rangeStart ∧ it'.rangeEnd = it.rangeEnd ∧ it'.search = it.search := by
  intro fuel
  induction fuel with
  | zero => intro it it' r h; exact Option.noConfusion h
  | succ n ih =>
    intro it it' r h
    obtain ⟨rs, re, dir, cur⟩ := it
    simp only [FreeRegionIter.next] at h
    by_cases hc : 0 < cur ∧ rs ≤ cur ∧ cur < re
    · rw [if_pos hc] at h
      cases hq : os.query cur with
      | mapped s e =>
        rw [hq] at h
        cases dir with
        | before => exact ih ⟨rs, re, SearchDirection.before, s - os.pageSize⟩ it' r h
        | after => exact ih ⟨rs, re, SearchDirection.after, e⟩ it' r h
      | unmappedRegion =>
        rw [hq] at h
        obtain ⟨_, h2⟩ := Prod.mk.injEq .. ▸ Option.some.inj h
        subst h2
        exact ⟨rfl, rfl, rfl⟩
      | queryError =>
        rw [hq] at h
        obtain ⟨_, h2⟩ := Prod.mk.injEq .. ▸ Option.some.inj h
        subst h2
        exact ⟨rfl, rfl, rfl⟩
    · rw [if_neg hc] at h
      exact absurd h (by simp)

theorem FreeRegionIter.next_ok (os : OS) :
    ∀ (fuel : Nat) (it it' : FreeRegionIter) (a : Nat),
      FreeRegionIter.next os fuel it = some (.ok a, it') →
      os.query a = .unmappedRegion ∧ 0 < a ∧ it.rangeStart ≤ a ∧ a < it.rangeEnd ∧
        it'.current = (match it.search with
          | SearchDirection.before => a - os.pageSize
          | SearchDirection.after => a + os.pageSize) := by
  intro fuel
  induction fuel with
  | zero => intro it it' a h; exact Option.noConfusion h
  | succ n ih =>
    intro it it' a h
    obtain ⟨rs, re, dir, cur⟩ := it
    simp only [FreeRegionIter.next] at h
    by_cases hc : 0 < cur ∧ rs ≤ cur ∧ cur < re
    · rw [if_pos hc] at h
      cases hq : os.query cur with
      | mapped s e =>
        rw [hq] at h
        cases dir with
        | before => exact ih ⟨rs, re, SearchDirection.before, s - os.pageSize⟩ it' a h
        | after => exact ih ⟨rs, re, SearchDirection.after, e⟩ it' a h
      | unmappedRegion =>
        rw [hq] at h
        obtain ⟨h1, h2⟩ := Prod.mk.injEq .. ▸ Option.some.inj h
        obtain rfl := Except.ok.inj h1
        subst h2
        exact ⟨hq, hc.1, hc.2.1, hc.2.2, rfl⟩
      | queryError =>
        rw [hq] at h
        obtain ⟨h1, _⟩ := Prod.mk.injEq .. ▸ Option.some.inj h
        exact absurd h1 (by simp)
    · rw [if_neg hc] at h
      exact absurd h (by simp)

theorem FreeRegionIter.next_ok_mono_after (os : OS)
    (hwf : ∀ x s e, os.query x = .mapped s e → x < e) :
    ∀ (fuel : Nat) (it it' : FreeRegionIter) (a : Nat), it.search = .after →
      FreeRegionIter.next os fuel it = some (.ok a, it') → it.current ≤ a := by
  intro fuel
  induction fuel with
  | zero => intro it it' a _ h; exact Option.noConfusion h
  | succ n ih =>
    intro it it' a hdir h
    obtain ⟨rs, re, dir, cur⟩ := it
    have hdir' : dir = SearchDirection.after := hdir
    subst hdir'
    simp only [FreeRegionIter.next] at h
    by_cases hc : 0 < cur ∧ rs ≤ cur ∧ cur < re
    · rw [if_pos hc] at h
      cases hq : os.query cur with
      | mapped s e =>
        rw [hq] at h
        have hlt := hwf cur s e hq
        have hstep : (⟨rs, re, SearchDirection.after, e⟩ : FreeRegionIter).current ≤ a :=
          ih ⟨rs, re, SearchDirection.after, e⟩ it' a rfl h
        have hstep' : e ≤ a := hstep
        exact Nat.le_trans (Nat.le_of_lt hlt) hstep'
      | unmappedRegion =>
        rw [hq] at h
        obtain ⟨h1, _⟩ := Prod.mk.injEq .. ▸ Option.some.inj h
        obtain rfl := Except.ok.inj h1
        exact Nat.le_refl _
      | queryError =>
        rw [hq] at h
        obtain ⟨h1, _⟩ := Prod.mk.injEq .. ▸ Option.some.inj h
        exact absurd h1 (by simp)
    · rw [if_neg hc] at h
      exact absurd h (by simp)

theorem FreeRegionIter.next_ok_mono_before (os : OS)
    (hwf : ∀ x s e, os.query x = .mapped s e → s ≤ x) :
    ∀ (fuel : Nat) (it it' : FreeRegionIter) (a : Nat), it.search = .before →
      FreeRegionIter.next os fuel it = some (.ok a, it') → a ≤ it.current := by
  intro fuel
  induction fuel with
  | zero => intro it it' a _ h; exact Option.noConfusion h
  | succ n ih =>
    intro it it' a hdir h
    obtain ⟨rs, re, dir, cur⟩ := it
    have hdir' : dir = SearchDirection.before := hdir
    subst hdir'
    simp only [FreeRegionIter.next] at h
    by_cases hc : 0 < cur ∧ rs ≤ cur ∧ cur < re
    · rw [if_pos hc] at h
      cases hq : os.query cur with
      | mapped s e =>
        rw [hq] at h
        have hle := hwf cur s e hq
        have hrec : a ≤ (⟨rs, re, SearchDirection.before, s - os.pageSize⟩ : FreeRegionIter).current :=
          ih ⟨rs, re, SearchDirection.before, s - os.pageSize⟩ it' a rfl h
        have hrec' : a ≤ s - os.pageSize := hrec
        show a ≤ cur
        omega
      | unmappedRegion =>
        rw [hq] at h
        obtain ⟨h1, _⟩ := Prod.mk.injEq .. ▸ Option.some.inj h
        obtain rfl := Except.ok.inj h1
        exact Nat.le_refl _
      | queryError =>
        rw [hq] at h
        obtain ⟨h1, _⟩ := Prod.mk.injEq .. ▸ Option.some.inj h
        exact absurd h1 (by simp)
    · rw [if_neg hc] at h
      exact absurd h (by simp)

theorem regionSearchResults_ok (os : OS) (fuel : Nat) :
    ∀ (n : Nat) (it : FreeRegionIter) (a : Nat),
      Except.ok a ∈ regionSearchResults os fuel it n →
      os.query a = .unmappedRegion ∧ 0 < a ∧ it.rangeStart ≤ a ∧ a < it.rangeEnd := by
  intro n
  induction n with
  | zero => intro it a h; exact absurd h (List.not_mem_nil _)
  | succ m ih =>
    intro it a h
    simp only [regionSearchResults] at h
    cases hn : FreeRegionIter.next os fuel it with
    | none => rw [hn] at h; simp at h
    | some rit =>
      obtain ⟨r, it'⟩ := rit
      rw [hn] at h
      rcases List.mem_cons.mp h with heq | hmem
      · obtain rfl := heq.symm
        have := FreeRegionIter.next_ok os fuel it it' a hn
        exact ⟨this.1, this.2.1, this.2.2.1, this.2.2.2.1⟩
      · have hpres := FreeRegionIter.next_preserves os fuel it it' r hn
        have := ih it' a hmem
        rw [hpres.1, hpres.2.1] at this
        exact this

theorem findPoolCandidate_ok (os : OS) (size : Nat) :
    ∀ (cands : List (Except RegionError Nat)) (pool : SlicePool),
      findPoolCandidate os size cands = .ok pool →
      ∃ a, Except.ok a ∈ cands ∧ pool = ⟨a, size, []⟩ ∧ os.mmapOk a size = true := by
  intro cands
  induction cands with
  | nil => intro pool h; simp [findPoolCandidate] at h
  | cons c rest ih =>
    intro pool h
    cases c with
    | ok address =>
      simp only [findPoolCandidate, allocateFixedPool] at h
      by_cases hmm : os.mmapOk address size = true
      · rw [if_pos hmm] at h
        obtain rfl := (Except.ok.inj h).symm
        exact ⟨address, by simp, rfl, hmm⟩
      · rw [if_neg (by simpa using hmm)] at h
        obtain ⟨a, hmem, hpool, hok⟩ := ih pool h
        exact ⟨a, List.mem_cons_of_mem _ hmem, hpool, hok⟩
    | error e =>
      simp [findPoolCandidate] at h

theorem allocate_pool_ok (os : OS) (fuel rangeStart rangeEnd origin size : Nat)
    (pool : SlicePool)
    (h : ProximityAllocator.allocate_pool os fuel rangeStart rangeEnd origin size = .ok pool) :
    rangeStart ≤ pool.base ∧ pool.base < rangeEnd ∧ pool.size = size ∧ pool.allocs = [] := by
  unfold ProximityAllocator.allocate_pool at h
  obtain ⟨a, hmem, hpool, _⟩ := findPoolCandidate_ok os size _ pool h
  subst hpool
  rcases List.mem_append.mp hmem with hmem | hmem
  · have := regionSearchResults_ok os fuel fuel (regionSearchAfter rangeStart rangeEnd origin) a hmem
    exact ⟨this.2.2.1, this.2.2.2, rfl, rfl⟩
  · have := regionSearchResults_ok os fuel fuel (regionSearchBefore rangeStart rangeEnd origin) a hmem
    exact ⟨this.2.2.1, this.2.2.2, rfl, rfl⟩

/-! ## Claim theorems -/

/-- C1: every allocation successfully returned by
`ProximityAllocator::allocate(origin, size)` — whether sub-allocated from
an existing pool or from a newly mapped pool — starts at an address inside
`[origin.saturating_sub(max_distance), origin.saturating_add(max_distance))`,
so its distance from `origin` is at most `max_distance`, with the bounds
saturating at the ends of the address space rather than wrapping.  (Pools
are at least one byte long, as every mapped pool is.) -/
theorem allocate_within_max_distance (st : ProximityAllocator) (os : OS)
    (fuel origin size addr : Nat) (st' : ProximityAllocator)
    (hpools : ∀ p ∈ st.pools, 1 ≤ p.size)
    (h : st.allocate os fuel origin size = .ok (addr, st')) :
    origin - st.max_distance ≤ addr ∧
    addr < saturatingAdd origin st.max_distance ∧
    (origin ≤ addr → addr - origin ≤ st.max_distance) ∧
    (addr ≤ origin → origin - addr ≤ st.max_distance) := by
  simp only [ProximityAllocator.allocate] at h
  cases hmem : allocateMemoryGo (origin - st.max_distance)
      (saturatingAdd origin st.max_distance) size st.pools with
  | some r =>
    obtain ⟨a0, pools0⟩ := r
    rw [hmem] at h
    obtain ⟨h1, _⟩ := Prod.mk.injEq .. ▸ Except.ok.inj h
    obtain rfl := h1
    have hr := allocateMemoryGo_addr_in_range (origin - st.max_distance)
      (saturatingAdd origin st.max_distance) size st.pools (a0, pools0) hpools hmem
    have hlt : a0 < origin + st.max_distance :=
      Nat.lt_of_lt_of_le hr.2 (Nat.min_le_left _ _)
    exact ⟨hr.1, hr.2, fun _ => by omega, fun _ => by
      have := hr.1
      omega⟩
  | none =>
    rw [hmem] at h
    cases hpool : ProximityAllocator.allocate_pool os fuel (origin - st.max_distance)
        (saturatingAdd origin st.max_distance) origin size with
    | error e => rw [hpool] at h; exact absurd h (by simp)
    | ok pool =>
      rw [hpool] at h
      obtain ⟨hrs, hre, hsz, hal⟩ := allocate_pool_ok os fuel (origin - st.max_distance)
        (saturatingAdd origin st.max_distance) origin size pool hpool
      obtain ⟨pb, ps, pa⟩ := pool
      simp only at hrs hre hsz hal
      subst hsz
      subst hal
      have h2 : (match SlicePool.alloc ⟨pb, ps, []⟩ ps with
          | none => (Except.error ProximityError.outOfMemory :
              Except ProximityError (Nat × ProximityAllocator))
          | some (a2, pool') =>
              Except.ok (a2, { st with pools := st.pools ++ [pool'] })) =
          Except.ok (addr, st') := h
      rw [SlicePool.alloc_fresh] at h2
      obtain ⟨h1, _⟩ := Prod.mk.injEq .. ▸ Except.ok.inj h2
      obtain rfl := h1
      have hlt : pb < origin + st.max_distance :=
        Nat.lt_of_lt_of_le hre (Nat.min_le_left _ _)
      exact ⟨hrs, hre, fun _ => by omega, fun _ => by
        have := hrs
        omega⟩

/-- Witness for C1 at a concrete allocator state, OS oracle, origin and
size (the existing-pool path). -/
theorem allocate_within_max_distance_witness :
    (∀ p ∈ (⟨100, [⟨1000, 16, []⟩]⟩ : ProximityAllocator).pools, 1 ≤ p.size) ∧
    ((⟨100, [⟨1000, 16, []⟩]⟩ : ProximityAllocator).allocate osFree 1 1000 4 =
      .ok (1000, ⟨100, [⟨1000, 16, [(0, 4)]⟩]⟩)) ∧
    ((1000 : Nat) - 100 ≤ 1000 ∧ 1000 < saturatingAdd 1000 100 ∧
      ((1000 : Nat) ≤ 1000 → 1000 - 1000 ≤ 100) ∧ ((1000 : Nat) ≤ 1000 → 1000 - 1000 ≤ 100)) :=
  ⟨by decide, rfl,
    allocate_within_max_distance ⟨100, [⟨1000, 16, []⟩]⟩ osFree 1 1000 4 1000
      ⟨100, [⟨1000, 16, [(0, 4)]⟩]⟩ (by decide) rfl⟩

/-- C2: the overwrite size computed by `CodePatcher::new` is the sum of the
lengths of accumulated instructions (those included while the cumulative
length was still below the requested patch length); for every decoded
stream covering at least the requested length, that size is at least the
requested patch length and is the total length of a prefix of whole
decoded instructions, so no decoded instruction is partially
overwritten. -/
theorem overwrite_size_at_boundary (patchSize : Nat) (lens : List Nat)
    (h : patchSize ≤ lens.sum) :
    patchSize ≤ trueOverwriteSize patchSize lens ∧
    ∃ k, k ≤ lens.length ∧
      accumulateInstructions patchSize lens 0 = lens.take k ∧
      trueOverwriteSize patchSize lens = (lens.take k).sum := by
  refine ⟨trueOverwriteSize_ge patchSize lens h, ?_⟩
  obtain ⟨k, hk, heq⟩ := accumulateInstructions_eq_take patchSize lens 0
  exact ⟨k, hk, heq, by rw [trueOverwriteSize, heq]⟩

/-- Witness for C2: a three-byte instruction straddling the requested
two-byte boundary forces the overwrite size out to four bytes. -/
theorem overwrite_size_at_boundary_witness :
    (2 : Nat) ≤ [1, 3, 1].sum ∧
    ((2 : Nat) ≤ trueOverwriteSize 2 [1, 3, 1] ∧
      ∃ k, k ≤ [1, 3, 1].length ∧
        accumulateInstructions 2 [1, 3, 1] 0 = [1, 3, 1].take k ∧
        trueOverwriteSize 2 [1, 3, 1] = ([1, 3, 1].take k).sum) :=
  ⟨by decide, overwrite_size_at_boundary 2 [1, 3, 1] (by decide)⟩

/-- C3: contrary to the claim, `ProximityAllocator::release` does not
remove a pool when its live-allocation count reaches zero: it compares the
pool's *byte length* (`SlicePool::len`) against `1`, so a 32-byte pool
whose sole live allocation is being released stays registered. -/
theorem release_keeps_pool_with_sole_allocation :
    ProximityAllocator.release ⟨0x80000000, [⟨4096, 32, [(0, 32)]⟩]⟩ 4096 =
      some ⟨0x80000000, [⟨4096, 32, [(0, 32)]⟩]⟩ := by
  decide

/-- C4: whenever the embedded `CodePatcher::new` returns an error — in
particular `BufferTooSmall` — it has performed no memory write at all, so
the memory at the target location (and everywhere else) is unchanged by a
failed construction; the only write to `location` happens later in
`CodePatcher::patch`. -/
theorem codePatcher_new_error_writes_nothing (location : Nat) (patch lens : List Nat)
    (jmpEncodable : Bool) (allocResult : Option Nat) (encodeResult : Option (List Nat))
    (e : CodeError)
    (h : (CodePatcher.new location patch lens jmpEncodable allocResult encodeResult).1 =
      .error e) (mem : Nat → Nat) :
    applyWrites mem
      (CodePatcher.new location patch lens jmpEncodable allocResult encodeResult).2 = mem := by
  cases jmpEncodable with
  | false => rfl
  | true =>
    cases allocResult with
    | none => rfl
    | some bufAddr =>
      cases encodeResult with
      | none => rfl
      | some bytes =>
        by_cases hlen :
            trueOverwriteSize patch.length lens * 2 + X86_64.max_instr_len < bytes.length
        · have h2 : (CodePatcher.new location patch lens true (some bufAddr)
              (some bytes)).2 = [] := by
            simp [CodePatcher.new, hlen]
          rw [h2]
          rfl
        · exact absurd h (by simp [CodePatcher.new, hlen])

/-- Witness for C4: an encode result one byte larger than the allocated
buffer yields `BufferTooSmall`, and the write list is empty so memory is
untouched. -/
theorem codePatcher_new_error_writes_nothing_witness :
    ((CodePatcher.new 50 [0] [1] true (some 100) (some (List.replicate 19 0))).1 =
      .error (.bufferTooSmall 18 19 100)) ∧
    applyWrites machine0.data
      (CodePatcher.new 50 [0] [1] true (some 100) (some (List.replicate 19 0))).2 =
      machine0.data :=
  ⟨rfl,
    codePatcher_new_error_writes_nothing 50 [0] [1] true (some 100)
      (some (List.replicate 19 0)) (.bufferTooSmall 18 19 100) rfl machine0.data⟩

/-- C5: `BytePatcher::patch(location, bytes)` never fails (the embedding is
total): it captures exactly `bytes.len()` original bytes from `location`,
writes the patch bytes there (touching nothing outside the range), and the
guard's restore writes the captured bytes back, so patch followed by
restore recovers the pre-patch memory exactly. -/
theorem bytePatcher_roundtrip (mem : Nat → Nat) (location : Nat) (patch : List Nat) :
    (BytePatchGuard.patch location patch mem).1.original =
      readBytes mem location patch.length ∧
    (BytePatchGuard.patch location patch mem).1.original.length = patch.length ∧
    readBytes (BytePatchGuard.patch location patch mem).2 location patch.length = patch ∧
    (∀ a, ¬(location ≤ a ∧ a < location + patch.length) →
      (BytePatchGuard.patch location patch mem).2 a = mem a) ∧
    BytePatchGuard.drop (BytePatchGuard.patch location patch mem).1
      (BytePatchGuard.patch location patch mem).2 = mem := by
  refine ⟨rfl, readBytes_length mem location patch.length,
    readBytes_writeBytes mem location patch,
    fun a ha => writeBytes_of_not_mem mem location patch a ha, ?_⟩
  exact writeBytes_readBytes_restore mem (writeBytes mem location patch) location patch.length
    (fun a ha => writeBytes_of_not_mem mem location patch a ha)

/-- C6: the instruction list built by `CodePatcher::new` is the accumulated
displaced instructions followed by exactly one appended relative jump, and
that jump targets `location + size` for the recomputed overwrite size,
i.e. the first address past the displaced region (which is at or past
`location + patch_size`). -/
theorem trampoline_ends_in_jump (location patchSize : Nat) (lens : List Nat)
    (h : patchSize ≤ lens.sum) :
    (codePatcherInstructions location patchSize lens).countP Instr.isJmp = 1 ∧
    (codePatcherInstructions location patchSize lens).getLast? =
      some (Instr.jmpRel32 (location + trueOverwriteSize patchSize lens)) ∧
    (codePatcherInstructions location patchSize lens).dropLast =
      (accumulateInstructions patchSize lens 0).map Instr.decoded ∧
    location + patchSize ≤ location + trueOverwriteSize patchSize lens := by
  have hzero : ∀ L : List Nat, (L.map Instr.decoded).countP Instr.isJmp = 0 := by
    intro L
    rw [List.countP_eq_zero]
    intro x hx
    obtain ⟨y, _, rfl⟩ := List.mem_map.mp hx
    simp [Instr.isJmp]
  refine ⟨?_, ?_, ?_, Nat.add_le_add_left (trueOverwriteSize_ge patchSize lens h) location⟩
  · simp [codePatcherInstructions, List.countP_append, hzero, List.countP_cons, Instr.isJmp,
      trueOverwriteSize]
  · simp [codePatcherInstructions, trueOverwriteSize]
  · simp [codePatcherInstructions]

/-- Witness for C6 at a concrete location, patch size and instruction
stream. -/
theorem trampoline_ends_in_jump_witness :
    (2 : Nat) ≤ [1, 3, 1].sum ∧
    ((codePatcherInstructions 100 2 [1, 3, 1]).countP Instr.isJmp = 1 ∧
      (codePatcherInstructions 100 2 [1, 3, 1]).getLast? =
        some (Instr.jmpRel32 (100 + trueOverwriteSize 2 [1, 3, 1])) ∧
      (codePatcherInstructions 100 2 [1, 3, 1]).dropLast =
        (accumulateInstructions 2 [1, 3, 1] 0).map Instr.decoded ∧
      100 + 2 ≤ 100 + trueOverwriteSize 2 [1, 3, 1]) :=
  ⟨by decide, trampoline_ends_in_jump 100 2 [1, 3, 1] (by decide)⟩

/-- C7: the final patch payload stored by `CodePatcher::new` is the
caller's patch bytes followed by `0x90` (no-op) padding, and its total
length equals the true overwrite size. -/
theorem final_patch_is_padded (patch : List Nat) (lens : List Nat)
    (h : patch.length ≤ lens.sum) :
    buildFinalPatch patch (trueOverwriteSize patch.length lens) =
      patch ++ List.replicate (trueOverwriteSize patch.length lens - patch.length) 0x90 ∧
    (buildFinalPatch patch (trueOverwriteSize patch.length lens)).length =
      trueOverwriteSize patch.length lens := by
  have hge := trueOverwriteSize_ge patch.length lens h
  constructor
  · unfold buildFinalPatch
    rw [List.take_append_eq_append_take, List.take_of_length_le hge, List.take_replicate,
      Nat.min_eq_left (Nat.sub_le _ _)]
  · unfold buildFinalPatch
    rw [List.length_take, List.length_append, List.length_replicate]
    exact Nat.min_eq_left (Nat.le_add_left _ _)

/-- Witness for C7 at a concrete patch and instruction stream. -/
theorem final_patch_is_padded_witness :
    ([7, 8] : List Nat).length ≤ [1, 3, 1].sum ∧
    (buildFinalPatch [7, 8] (trueOverwriteSize ([7, 8] : List Nat).length [1, 3, 1]) =
      [7, 8] ++ List.replicate
        (trueOverwriteSize ([7, 8] : List Nat).length [1, 3, 1] - ([7, 8] : List Nat).length)
        0x90 ∧
      (buildFinalPatch [7, 8] (trueOverwriteSize ([7, 8] : List Nat).length [1, 3, 1])).length =
        trueOverwriteSize ([7, 8] : List Nat).length [1, 3, 1]) :=
  ⟨by decide, final_patch_is_padded [7, 8] [1, 3, 1] (by decide)⟩

/-- C8: in `PermissionWrapperGuard::drop`, the inner byte-guard restore
runs while the protection of the patched range is elevated to
`Protection::all()` (so the write is legal), and the prior protection is
restored strictly afterwards: the final state has the restored data with
the pre-drop protection, and the whole round trip brings the data back to
its pre-patch contents. -/
theorem permission_restore_after_data_restore (s : MachineState) (location : Nat)
    (patch : List Nat) :
    (∀ a, location ≤ a → a < location + patch.length →
      ((permissionPatchGuard s location patch).dropElevated
        (permissionPatchState s location patch)).prot a = Protection.all) ∧
    ((permissionPatchGuard s location patch).drop
      (permissionPatchState s location patch)).prot =
      (permissionPatchState s location patch).prot ∧
    ((permissionPatchGuard s location patch).drop
      (permissionPatchState s location patch)).data =
      writeBytes (permissionPatchState s location patch).data location
        (readBytes s.data location patch.length) ∧
    ((permissionPatchGuard s location patch).drop
      (permissionPatchState s location patch)).data = s.data := by
  refine ⟨?_, ?_, rfl, ?_⟩
  · intro a h1 h2
    have e1 : ((permissionPatchGuard s location patch).dropElevated
        (permissionPatchState s location patch)).prot a =
        if location ≤ a ∧ a < location + patch.length then Protection.all
        else (permissionPatchState s location patch).prot a := rfl
    rw [e1, if_pos ⟨h1, h2⟩]
  · funext a
    by_cases hin : location ≤ a ∧ a < location + patch.length
    · exact if_pos hin
    · have e1 : ((permissionPatchGuard s location patch).drop
          (permissionPatchState s location patch)).prot a =
          if location ≤ a ∧ a < location + patch.length then
            (permissionPatchState s location patch).prot a
          else
            (if location ≤ a ∧ a < location + patch.length then Protection.all
              else (permissionPatchState s location patch).prot a) := rfl
      rw [e1, if_neg hin, if_neg hin]
  · exact writeBytes_readBytes_restore s.data (writeBytes s.data location patch) location
      patch.length (fun a ha => writeBytes_of_not_mem s.data location patch a ha)

/-- Witness for C8: the elevated-protection fact at a concrete machine
state, location and patch. -/
theorem permission_restore_after_data_restore_witness :
    (10 : Nat) ≤ 10 ∧ (10 : Nat) < 10 + ([1, 2] : List Nat).length ∧
    ((permissionPatchGuard machine0 10 [1, 2]).dropElevated
      (permissionPatchState machine0 10 [1, 2])).prot 10 = Protection.all :=
  ⟨by decide, by decide,
    (permission_restore_after_data_restore machine0 10 [1, 2]).1 10 (by decide) (by decide)⟩

/-- C9: `FreeRegionIter::next` yields a candidate only for an address the
OS reports unmapped (and inside the bound range, nonzero), advancing the
cursor one page past it so successive calls yield successive distinct
candidates (monotone when region queries are well formed); a mapped region
yields nothing and only advances the cursor past the region (after) or to
one page before its start (before); and iteration ends when the cursor
reaches zero or leaves the bound range. -/
theorem free_region_iter_spec (os : OS) (fuel : Nat) (it it' : FreeRegionIter) :
    (∀ a, FreeRegionIter.next os fuel it = some (.ok a, it') →
      os.query a = .unmappedRegion ∧ 0 < a ∧ it.rangeStart ≤ a ∧ a < it.rangeEnd ∧
      it'.rangeStart = it.rangeStart ∧ it'.rangeEnd = it.rangeEnd ∧ it'.search = it.search ∧
      it'.current = (match it.search with
        | SearchDirection.before => a - os.pageSize
        | SearchDirection.after => a + os.pageSize) ∧
      (it.search = .after → (∀ x s e, os.query x = .mapped s e → x < e) → it.current ≤ a) ∧
      (it.search = .before → (∀ x s e, os.query x = .mapped s e → s ≤ x) → a ≤ it.current)) ∧
    (∀ rstart rend, 0 < it.current → it.rangeStart ≤ it.current → it.current < it.rangeEnd →
      os.query it.current = .mapped rstart rend →
      FreeRegionIter.next os (fuel + 1) it =
        FreeRegionIter.next os fuel
          { it with current := match it.search with
              | SearchDirection.before => rstart - os.pageSize
              | SearchDirection.after => rend }) ∧
    (it.current = 0 ∨ it.current < it.rangeStart ∨ it.rangeEnd ≤ it.current →
      FreeRegionIter.next os fuel it = none) := by
  refine ⟨?_, ?_, ?_⟩
  · intro a h
    have h1 := FreeRegionIter.next_ok os fuel it it' a h
    have h2 := FreeRegionIter.next_preserves os fuel it it' (.ok a) h
    exact ⟨h1.1, h1.2.1, h1.2.2.1, h1.2.2.2.1, h2.1, h2.2.1, h2.2.2, h1.2.2.2.2,
      fun hdir hwf => FreeRegionIter.next_ok_mono_after os hwf fuel it it' a hdir h,
      fun hdir hwf => FreeRegionIter.next_ok_mono_before os hwf fuel it it' a hdir h⟩
  · intro rstart rend h0 hs he hq
    simp only [FreeRegionIter.next]
    rw [if_pos ⟨h0, hs, he⟩, hq]
  · intro hc
    exact FreeRegionIter.next_exit os fuel it (by omega)

/-- Witness for C9: a scan from inside a mapped region `[0, 8192)` skips
the region without yielding and then yields the first unmapped page. -/
theorem free_region_iter_spec_witness :
    FreeRegionIter.next osLowMapped 2 ⟨4096, 100000, .after, 4096⟩ =
      some (.ok 8192, ⟨4096, 100000, .after, 12288⟩) ∧
    (osLowMapped.query 8192 = QueryResult.unmappedRegion ∧ (0 : Nat) < 8192 ∧
      (4096 : Nat) ≤ 8192 ∧ (8192 : Nat) < 100000 ∧
      (4096 : Nat) = 4096 ∧ (100000 : Nat) = 100000 ∧
      SearchDirection.after = SearchDirection.after ∧
      (12288 : Nat) = 8192 + osLowMapped.pageSize ∧
      (SearchDirection.after = SearchDirection.after →
        (∀ x s e, osLowMapped.query x = QueryResult.mapped s e → x < e) →
        (4096 : Nat) ≤ 8192) ∧
      (SearchDirection.after = SearchDirection.before →
        (∀ x s e, osLowMapped.query x = QueryResult.mapped s e → s ≤ x) →
        (8192 : Nat) ≤ 4096)) :=
  ⟨rfl,
    (free_region_iter_spec osLowMapped 2 ⟨4096, 100000, .after, 4096⟩
      ⟨4096, 100000, .after, 12288⟩).1 8192 rfl⟩

/-- C10: the `X86_64` architecture descriptor reports a maximum instruction
length of 16 and a bitness of 64, so `CodePatcher::new` reads exactly
`patch.len() + 16` bytes from the target before decoding — not the
`patch.len() + 14` stated in the type's safety documentation. -/
theorem x86_64_read_length (p : Nat) :
    X86_64.max_instr_len = 16 ∧ X86_64.bitness = 64 ∧
    codePatcherReadLen p = p + 16 ∧ codePatcherReadLen p ≠ p + 14 :=
  ⟨rfl, rfl, rfl, show p + 16 ≠ p + 14 by omega⟩

end LibHook
